import Mathlib

set_option maxRecDepth 16384

/-!
Verification of the steganographic codec in `src/services/steganography.ts`.

Strings are modelled as lists of UTF-16 code units (`List Nat`), the RGBA pixel
buffer as a `List Nat` (one entry per channel, row-major, 4 channels per pixel),
and JavaScript's signed 32-bit integer operations (`Math.imul`, `^`, `<<`,
`>>>`, `|`) over `Int` with explicit `ToInt32`/`ToUint32` conversions.

External collaborators loaded via script tags (CryptoJS.SHA256 and
CryptoJS.AES) are not part of the repository's sources; functions that use them
take the hash / cipher as explicit function parameters, modelled from the spec.
-/

namespace Steg

/-- The unsigned 32-bit modulus 2^32. -/
def U32 : Nat := 4294967296

/-- JavaScript ToUint32: reduce an integer to its unsigned 32-bit value. -/
def toUint32 (x : Int) : Nat := (x % (U32 : Int)).toNat

/-- JavaScript ToInt32: reduce an integer to its signed 32-bit value. -/
def toInt32 (x : Int) : Int :=
  if toUint32 x < 2147483648 then (toUint32 x : Int) else (toUint32 x : Int) - (U32 : Int)

/-- JavaScript `a ^ b` on 32-bit integers. -/
def jsXor (a b : Int) : Int := toInt32 (Nat.xor (toUint32 a) (toUint32 b) : Nat)

/-- JavaScript `a | b` on 32-bit integers. -/
def jsBitOr (a b : Int) : Int := toInt32 (Nat.lor (toUint32 a) (toUint32 b) : Nat)

/-- JavaScript `Math.imul(a, b)`: 32-bit wrapping multiply. -/
def jsImul (a b : Int) : Int := toInt32 ((toUint32 a * toUint32 b : Nat) : Int)

/-- JavaScript `a << n` for a literal shift count `n < 32`. -/
def jsShl (a : Int) (n : Nat) : Int := toInt32 ((toUint32 a <<< n : Nat) : Int)

/-- JavaScript `a >>> n` for a literal shift count `n < 32`; the result is the
nonnegative number `ToUint32(a) >> n`. -/
def jsShrU (a : Int) (n : Nat) : Int := ((toUint32 a >>> n : Nat) : Int)

/-- State update for one character of the seeding loop of `createSeededRandom`
(`src/services/steganography.ts:42-45`):
`h = Math.imul(h ^ seed.charCodeAt(i), 3432918353); h = h << 13 | h >>> 19`. -/
def seedStep (h : Int) (c : Nat) : Int :=
  let h1 := jsImul (jsXor h (c : Int)) 3432918353
  jsBitOr (jsShl h1 13) (jsShrU h1 19)

/-- Initial generator state built by `createSeededRandom`
(`src/services/steganography.ts:40-45`): `let h = 1779033703 ^ seed.length`
followed by the per-character seeding loop. -/
def createSeededRandom (seed : List Nat) : Int :=
  seed.foldl seedStep (jsXor 1779033703 (seed.length : Int))

/-- One draw of the generator returned by `createSeededRandom`
(`src/services/steganography.ts:46-50`). Returns the new state together with
the unsigned 32-bit numerator of the produced float `(h >>> 0) / 4294967296`. -/
def seededNext (h : Int) : Int × Nat :=
  let h1 := jsImul (jsXor h (jsShrU h 16)) 2246822507
  let h2 := jsImul (jsXor h1 (jsShrU h1 13)) 3266489909
  let h3 := jsXor h2 (jsShrU h2 16)
  (h3, toUint32 h3)

/-- Unsigned 32-bit reference of the seeding recurrence, following the spec's
words: `h = (h XOR charcode) * 3432918353 mod 2^32`, then rotate-left by 13
bits within 32 bits. -/
def uSeedStep (h : Nat) (c : Nat) : Nat :=
  let m := Nat.xor h c * 3432918353 % U32
  Nat.lor (m <<< 13 % U32) (m >>> 19)

/-- Unsigned 32-bit reference of the generator initialisation, following the
spec's words: `h = 1779033703 XOR length(seed)`, then the per-character
recurrence `uSeedStep`. -/
def uSeedInit (seed : List Nat) : Nat :=
  seed.foldl uSeedStep (Nat.xor 1779033703 seed.length)

/-- Unsigned 32-bit reference of one draw, following the spec's words:
`h = (h XOR (h >> 16)) * 2246822507 mod 2^32`, then
`h = (h XOR (h >> 13)) * 3266489909 mod 2^32`, then `h = h XOR (h >> 16)`,
returning the final `h` as both new state and output numerator. -/
def uNext (h : Nat) : Nat × Nat :=
  let h1 := Nat.xor h (h >>> 16) * 2246822507 % U32
  let h2 := Nat.xor h1 (h1 >>> 13) * 3266489909 % U32
  let h3 := Nat.xor h2 (h2 >>> 16)
  (h3, h3)

/-- Model of the in-place swap `[array[i], array[j]] = [array[j], array[i]]`
(`src/services/steganography.ts:61`): both elements are read before either
position is assigned. -/
def listSwap (l : List Nat) (i j : Nat) : List Nat :=
  (l.set i (l.getD j 0)).set j (l.getD i 0)

/-- Descending loop indices `i = length-1, ..., 1` of the Fisher-Yates loop
(`src/services/steganography.ts:59`). -/
def descRange (n : Nat) : List Nat := ((List.range (n - 1)).map (· + 1)).reverse

/-- One iteration of `shuffleArray`: draw `j = Math.floor(rng() * (i + 1))` and
swap positions `i` and `j`. The rng float is `u / 2^32` with `u` the unsigned
32-bit numerator returned by `seededNext`, so the floor is `u * (i+1) / 2^32`
in exact integer arithmetic. -/
def shuffleStep (s : List Nat × Int) (i : Nat) : List Nat × Int :=
  let hu := seededNext s.2
  (listSwap s.1 i (hu.2 * (i + 1) / U32), hu.1)

/-- Model of `shuffleArray` (`src/services/steganography.ts:58-63`), threading
the generator state through the descending Fisher-Yates loop. -/
def shuffleArray (arr : List Nat) (h : Int) : List Nat × Int :=
  (descRange arr.length).foldl shuffleStep (arr, h)

/-- Model of `getShuffledPixelIndices` (`src/services/steganography.ts:72-79`).
The password hash is an explicit function parameter, modelled from the spec:
`CryptoJS.SHA256` is loaded from a script tag and is not part of the
repository sources; per the spec it is a fixed 256-bit digest turning the
password into a hash string, which seeds the generator. -/
def getShuffledPixelIndices (hash : List Nat → List Nat) (width height : Nat)
    (password : List Nat) : List Nat :=
  (shuffleArray (List.range (width * height)) (createSeededRandom (hash password))).1

/-- Binary digit list of `n`, most significant digit first, as produced by
JavaScript `num.toString(2)`: the number `0` yields the single digit `0`.
Written with an explicit recursion bound so that the definition is
structurally recursive; `natToBits_two_le` recovers the intended recurrence. -/
def natToBitsAux : Nat → Nat → List Nat
  | 0, _ => []
  | fuel + 1, n => if n < 2 then [n] else natToBitsAux fuel (n / 2) ++ [n % 2]

/-- Binary digit list of `n` (JavaScript `num.toString(2)`). -/
def natToBits (n : Nat) : List Nat := natToBitsAux (n + 1) n

/-- Model of `String.padStart(w, '0')`: prepend zeros up to width `w`
(never truncates). -/
def padStart (w : Nat) (l : List Nat) : List Nat := List.replicate (w - l.length) 0 ++ l

/-- Model of `stringToBinary` (`src/services/steganography.ts:83-87`): each
character code is written in binary by `toString(2)` and left-padded with
zeros to at least 8 digits by `padStart(8, '0')`, then all digit blocks are
concatenated. Codes at or above 256 produce more than 8 digits, since
`padStart` never truncates. -/
def stringToBinary (s : List Nat) : List Nat :=
  (s.map (fun c => padStart 8 (natToBits c))).flatten

/-- Model of `binaryToNumber` / `parseInt(digits, 2)` on a string of binary
digits (`src/services/steganography.ts:99-101`). -/
def binaryToNumber (bits : List Nat) : Nat := bits.foldl (fun a b => 2 * a + b) 0

/-- Model of `numberTo32BitBinary` (`src/services/steganography.ts:95-97`):
`num.toString(2).padStart(32, '0')`. -/
def numberTo32BitBinary (n : Nat) : List Nat := padStart 32 (natToBits n)

/-- Model of `binaryToString` (`src/services/steganography.ts:89-93`): the
regex `.{1,8}` splits the digit string into chunks of 8 (a shorter final chunk
is possible) and each chunk is parsed back to a character code. Written with
an explicit recursion bound; `binaryToString_ne_nil` recovers the intended
recurrence. -/
def binaryToStringAux : Nat → List Nat → List Nat
  | 0, _ => []
  | _, [] => []
  | fuel + 1, bits => binaryToNumber (bits.take 8) :: binaryToStringAux fuel (bits.drop 8)

/-- Model of `binaryToString`: chunk into 8-digit groups and decode each. -/
def binaryToString (bits : List Nat) : List Nat := binaryToStringAux bits.length bits

/-- The RGBA pixel buffer: one entry per 8-bit channel, four channels
(R, G, B, A) per pixel, pixel `i` at offsets `4*i .. 4*i+3`. -/
abbrev Buffer := List Nat

/-- Errors thrown by `encode` and `decode`; each constructor mirrors one
`throw new Error(...)` site in `src/services/steganography.ts`. -/
inductive StegoError where
  | capacityExceeded (required : Nat) (available : Nat)
  | headerRead
  | invalidLength
  | truncatedPayload
  | decryption
deriving DecidableEq

/-- JavaScript `pixels[p] = (pixels[p] & 0xFE) | bit`, the channel LSB
overwrite of `encode` (`src/services/steganography.ts:136,140,144`). -/
def setLSB (pixels : Buffer) (p : Nat) (bit : Nat) : Buffer :=
  pixels.set p (Nat.lor (Nat.land (pixels.getD p 0) 254) bit)

/-- The three guarded channel writes of one pixel in the embedding loop
(`src/services/steganography.ts:131-146`): R, G, B in order, each performed
only while payload bits remain; returns the buffer and the unconsumed bits. -/
def embedPixel (pixels : Buffer) (base : Nat) (bits : List Nat) : Buffer × List Nat :=
  match bits with
  | [] => (pixels, [])
  | [b1] => (setLSB pixels base b1, [])
  | [b1, b2] => (setLSB (setLSB pixels base b1) (base + 1) b2, [])
  | b1 :: b2 :: b3 :: rest =>
    (setLSB (setLSB (setLSB pixels base b1) (base + 1) b2) (base + 2) b3, rest)

/-- The embedding loop of `encode` (`src/services/steganography.ts:129-146`):
walk the shuffled pixel order while payload bits remain, writing one LSB per
R, G, B channel. -/
def embedLoop : Buffer → List Nat → List Nat → Buffer
  | pixels, [], _ => pixels
  | pixels, _ :: _, [] => pixels
  | pixels, idx :: rest, b :: bs =>
    let s := embedPixel pixels (idx * 4) (b :: bs)
    embedLoop s.1 rest s.2

/-- The framed payload built by `encode` (`src/services/steganography.ts:115-118`):
32-bit big-endian body bit length followed by the ciphertext bits. -/
def payloadModel (enc : List Nat → List Nat → List Nat) (data pw : List Nat) : List Nat :=
  numberTo32BitBinary (stringToBinary (enc data pw)).length ++ stringToBinary (enc data pw)

/-- Model of `encode` (`src/services/steganography.ts:111-150`) on the pixel
buffer, returning the buffer together with the outcome. The cipher `enc` is a
function parameter, modelled from the spec: `CryptoJS.AES.encrypt` is loaded
from a script tag and is not part of the repository sources. The capacity
check throws before the buffer is read or written, so in the error case the
input buffer is returned unchanged. -/
def encodeModel (hash : List Nat → List Nat) (enc : List Nat → List Nat → List Nat)
    (W H : Nat) (pixels : Buffer) (data pw : List Nat) :
    Buffer × Except StegoError Unit :=
  let payload := payloadModel enc data pw
  let capacity := W * H * 3
  if payload.length > capacity then
    (pixels, .error (.capacityExceeded payload.length capacity))
  else
    (embedLoop pixels (getShuffledPixelIndices hash W H pw) payload, .ok ())

/-- One guarded LSB read of `decode`: while fewer than `limit` bits are
collected, read `pixels[p] & 1` and append its digit. The buffer is threaded
through so the model records that decoding only reads it. -/
def readPush (pixels : Buffer) (p : Nat) (acc : List Nat) (limit : Nat) :
    Buffer × List Nat :=
  if acc.length < limit then (pixels, acc ++ [Nat.land (pixels.getD p 0) 1])
  else (pixels, acc)

/-- The header loop of `decode` (`src/services/steganography.ts:171-179`):
walk the shuffled pixel order, reading the R, G, B LSBs while fewer than 32
header bits are collected. -/
def extractHeader : Buffer → List Nat → List Nat → Buffer × List Nat
  | pixels, [], acc => (pixels, acc)
  | pixels, idx :: rest, acc =>
    if acc.length < 32 then
      let s1 := readPush pixels (idx * 4) acc 32
      let s2 := readPush s1.1 (idx * 4 + 1) s1.2 32
      let s3 := readPush s2.1 (idx * 4 + 2) s2.2 32
      extractHeader s3.1 rest s3.2
    else (pixels, acc)

/-- Constant from `src/services/steganography.ts:196`. -/
def bitsUsedForLength : Nat := 32

/-- Constant from `src/services/steganography.ts:197`. -/
def channelsPerPixel : Nat := 3

/-- `Math.ceil(bitsUsedForLength / channelsPerPixel)` from
`src/services/steganography.ts:198`, written as a ceiling division. -/
def pixelsUsedForLength : Nat := (bitsUsedForLength + channelsPerPixel - 1) / channelsPerPixel

/-- `(pixelsUsedForLength * channelsPerPixel) - bitsUsedForLength` from
`src/services/steganography.ts:199`. -/
def leftoverBitsInLastPixel : Nat := pixelsUsedForLength * channelsPerPixel - bitsUsedForLength

/-- `channelsPerPixel - leftoverBitsInLastPixel` from
`src/services/steganography.ts:202`: the channel at which the body read
resumes inside the pixel that held the last header bits. -/
def startChannelVal : Nat := channelsPerPixel - leftoverBitsInLastPixel

/-- The body loop of `decode` (`src/services/steganography.ts:204-215`): for
the first pixel read channels `startChannel .. 2`, thereafter whole pixels,
while fewer than `limit` body bits are collected. -/
def extractBody : Buffer → List Nat → Nat → Nat → List Nat → Buffer × List Nat
  | pixels, [], _, _, acc => (pixels, acc)
  | pixels, idx :: rest, startChannel, limit, acc =>
    if acc.length < limit then
      let s := ((List.range channelsPerPixel).drop startChannel).foldl
        (fun (s : Buffer × List Nat) c => readPush s.1 (idx * 4 + c) s.2 limit)
        (pixels, acc)
      extractBody s.1 rest 0 limit s.2
    else (pixels, acc)

/-- Model of `decode` (`src/services/steganography.ts:158-234`), returning the
buffer together with the outcome. The hash and the cipher `dec` are function
parameters modelled from the spec (they are CryptoJS script-tag collaborators,
absent from the repository sources): `dec ct pw = none` models
`CryptoJS.AES.decrypt` throwing, and a `some` result equal to the empty
string is rejected exactly as at `src/services/steganography.ts:227-229`.
The source also tests `messageLength < 0`, which is vacuous for a
nonnegative binary parse and is dropped in this `Nat` model. -/
def decodeModel (hash : List Nat → List Nat) (dec : List Nat → List Nat → Option (List Nat))
    (W H : Nat) (pixels : Buffer) (pw : List Nat) :
    Buffer × Except StegoError (List Nat) :=
  let order := getShuffledPixelIndices hash W H pw
  let s1 := extractHeader pixels order []
  if s1.2.length < 32 then (s1.1, .error .headerRead)
  else
    let messageLength := binaryToNumber s1.2
    let capacity := W * H * 3
    if messageLength > capacity then (s1.1, .error .invalidLength)
    else
      let s2 := extractBody s1.1 (order.drop (pixelsUsedForLength - 1)) startChannelVal
        messageLength []
      if s2.2.length < messageLength then (s2.1, .error .truncatedPayload)
      else
        match dec (binaryToString s2.2) pw with
        | none => (s2.1, .error .decryption)
        | some d => if d = [] then (s2.1, .error .decryption) else (s2.1, .ok d)

/-- Buffer offsets of the permuted channel sequence: for each pixel index in
the permuted order, its R, G, B channel offsets in the buffer. -/
def posStream (order : List Nat) : List Nat :=
  order.flatMap (fun idx => [idx * 4, idx * 4 + 1, idx * 4 + 2])

/-- LSBs of the buffer along the permuted channel sequence. -/
def lsbStream (pixels : Buffer) (order : List Nat) : List Nat :=
  (posStream order).map (fun p => Nat.land (pixels.getD p 0) 1)

/-- Sequential LSB writes of a list of (buffer offset, bit) pairs; the
embedding loop is equivalent to this normal form (`embedLoop_eq`). -/
def writeAll (pixels : Buffer) (ps : List (Nat × Nat)) : Buffer :=
  ps.foldl (fun b pb => setLSB b pb.1 pb.2) pixels

instance {ε α : Type} [DecidableEq ε] [DecidableEq α] : DecidableEq (Except ε α) :=
  fun a b =>
    match a, b with
    | .error e, .error f =>
      if h : e = f then isTrue (by rw [h]) else isFalse (fun hc => h (Except.error.inj hc))
    | .error _, .ok _ => isFalse (fun hc => Except.noConfusion hc)
    | .ok _, .error _ => isFalse (fun hc => Except.noConfusion hc)
    | .ok x, .ok y =>
      if h : x = y then isTrue (by rw [h]) else isFalse (fun hc => h (Except.ok.inj hc))

theorem U32_pos : 0 < (U32 : Int) := by decide

theorem toUint32_lt (x : Int) : toUint32 x < U32 := by
  have h := Int.emod_lt_of_pos x U32_pos
  have h0 := Int.emod_nonneg x (by decide : (U32 : Int) ≠ 0)
  unfold toUint32
  omega

theorem toUint32_natCast (m : Nat) : toUint32 (m : Int) = m % U32 := by
  unfold toUint32
  rw [← Int.natCast_mod]
  exact Int.toNat_natCast _

theorem toUint32_ofNat {n : Nat} (h : n < U32) : toUint32 (n : Int) = n := by
  rw [toUint32_natCast, Nat.mod_eq_of_lt h]

theorem U32_eq_pow : U32 = 2 ^ 32 := by norm_num [U32]

theorem toUint32_toInt32 (x : Int) : toUint32 (toInt32 x) = toUint32 x := by
  unfold toInt32
  by_cases h : toUint32 x < 2147483648
  · simp only [h, if_pos]
    exact toUint32_ofNat (toUint32_lt x)
  · simp only [h, if_neg, not_false_iff]
    unfold toUint32
    rw [Int.toNat_of_nonneg (Int.emod_nonneg x (by decide))]
    simp only [U32]
    omega

theorem xor_lt_U32 {a b : Nat} (ha : a < U32) (hb : b < U32) : Nat.xor a b < U32 := by
  rw [U32_eq_pow] at *
  exact Nat.xor_lt_two_pow ha hb

theorem or_lt_U32 {a b : Nat} (ha : a < U32) (hb : b < U32) : Nat.lor a b < U32 := by
  rw [U32_eq_pow] at *
  exact Nat.or_lt_two_pow ha hb

theorem toUint32_jsXor (a b : Int) :
    toUint32 (jsXor a b) = Nat.xor (toUint32 a) (toUint32 b) := by
  unfold jsXor
  rw [toUint32_toInt32]
  exact toUint32_ofNat (xor_lt_U32 (toUint32_lt a) (toUint32_lt b))

theorem toUint32_jsBitOr (a b : Int) :
    toUint32 (jsBitOr a b) = Nat.lor (toUint32 a) (toUint32 b) := by
  unfold jsBitOr
  rw [toUint32_toInt32]
  exact toUint32_ofNat (or_lt_U32 (toUint32_lt a) (toUint32_lt b))

theorem toUint32_jsImul (a b : Int) :
    toUint32 (jsImul a b) = toUint32 a * toUint32 b % U32 := by
  unfold jsImul
  rw [toUint32_toInt32, toUint32_natCast]

theorem toUint32_jsShl (a : Int) (n : Nat) :
    toUint32 (jsShl a n) = toUint32 a <<< n % U32 := by
  unfold jsShl
  rw [toUint32_toInt32, toUint32_natCast]

theorem shiftRight_lt_U32 {m : Nat} (h : m < U32) (n : Nat) : m >>> n < U32 :=
  Nat.lt_of_le_of_lt (by rw [Nat.shiftRight_eq_div_pow]; exact Nat.div_le_self _ _) h

theorem toUint32_jsShrU (a : Int) (n : Nat) :
    toUint32 (jsShrU a n) = toUint32 a >>> n := by
  unfold jsShrU
  rw [toUint32_natCast, Nat.mod_eq_of_lt (shiftRight_lt_U32 (toUint32_lt a) n)]

theorem toUint32_lit1 : toUint32 1779033703 = 1779033703 := rfl

theorem toUint32_lit2 : toUint32 3432918353 = 3432918353 := rfl

theorem toUint32_lit3 : toUint32 2246822507 = 2246822507 := rfl

theorem toUint32_lit4 : toUint32 3266489909 = 3266489909 := rfl

theorem toUint32_seedStep (h : Int) (c : Nat) (hc : c < U32) :
    toUint32 (seedStep h c) = uSeedStep (toUint32 h) c := by
  unfold seedStep uSeedStep
  rw [toUint32_jsBitOr, toUint32_jsShl, toUint32_jsShrU, toUint32_jsImul, toUint32_jsXor,
    toUint32_natCast, toUint32_lit2, Nat.mod_eq_of_lt hc]

theorem foldl_seedStep_agree (l : List Nat) :
    ∀ (h : Int) (u : Nat), toUint32 h = u → (∀ c ∈ l, c < U32) →
      toUint32 (l.foldl seedStep h) = l.foldl uSeedStep u := by
  induction l with
  | nil => intro h u hu _; simpa using hu
  | cons c t ih =>
    intro h u hu hc
    simp only [List.foldl_cons]
    refine ih _ _ ?_ (fun x hx => hc x (List.mem_cons_of_mem _ hx))
    rw [toUint32_seedStep h c (hc c (List.mem_cons_self c t)), hu]

theorem toUint32_createSeededRandom (seed : List Nat) (hc : ∀ c ∈ seed, c < U32)
    (hl : seed.length < U32) :
    toUint32 (createSeededRandom seed) = uSeedInit seed := by
  unfold createSeededRandom uSeedInit
  refine foldl_seedStep_agree seed _ _ ?_ hc
  rw [toUint32_jsXor, toUint32_natCast, toUint32_lit1, Nat.mod_eq_of_lt hl]

theorem seededNext_agree (h : Int) :
    toUint32 (seededNext h).1 = (uNext (toUint32 h)).1 ∧
      (seededNext h).2 = (uNext (toUint32 h)).2 := by
  unfold seededNext uNext
  simp only
  rw [toUint32_jsXor, toUint32_jsShrU, toUint32_jsImul, toUint32_jsXor, toUint32_jsShrU,
    toUint32_jsImul, toUint32_jsXor, toUint32_jsShrU, toUint32_lit3, toUint32_lit4]
  exact ⟨rfl, rfl⟩

theorem uNext_lt_U32 (u : Nat) : (uNext u).2 < U32 := by
  unfold uNext
  simp only
  exact xor_lt_U32 (Nat.mod_lt _ (by decide)) (shiftRight_lt_U32 (Nat.mod_lt _ (by decide)) 16)

theorem listSwap_length (l : List Nat) (i j : Nat) : (listSwap l i j).length = l.length := by
  unfold listSwap
  rw [List.length_set, List.length_set]

theorem set_getD_self (l : List Nat) (i : Nat) (h : i < l.length) :
    l.set i (l.getD i 0) = l := by
  rw [List.getD_eq_getElem l 0 h]
  apply List.ext_getElem?
  intro n
  by_cases hn : n = i
  · subst hn
    rw [List.getElem?_set_self h]
    exact (List.getElem?_eq_getElem h).symm
  · rw [List.getElem?_set_ne (fun hh => hn hh.symm)]

theorem swapHead_perm : ∀ (t : List Nat) (k : Nat) (x : Nat), k < t.length →
    List.Perm (t.getD k 0 :: t.set k x) (x :: t) := by
  intro t
  induction t with
  | nil => intro k x hk; exact absurd hk (by simp)
  | cons y s ih =>
    intro k x hk
    cases k with
    | zero =>
      simp only [List.getD_cons_zero, List.set_cons_zero]
      exact List.Perm.swap x y s
    | succ m =>
      simp only [List.getD_cons_succ, List.set_cons_succ]
      exact List.Perm.trans (List.Perm.swap y (s.getD m 0) (s.set m x))
        (List.Perm.trans (List.Perm.cons y (ih m x (Nat.lt_of_succ_lt_succ hk)))
          (List.Perm.swap x y s))

theorem listSwap_perm : ∀ (l : List Nat) (i j : Nat), j ≤ i → i < l.length →
    List.Perm (listSwap l i j) l := by
  intro l
  induction l with
  | nil => intro i j _ hi; exact absurd hi (by simp)
  | cons x t ih =>
    intro i j hji hi
    cases i with
    | zero =>
      have : j = 0 := Nat.le_zero.mp hji
      subst this
      rw [listSwap, List.set_set, set_getD_self _ 0 hi]
    | succ k =>
      cases j with
      | zero =>
        show List.Perm (((x :: t).set (k+1) ((x :: t).getD 0 0)).set 0 ((x :: t).getD (k+1) 0)) _
        simp only [List.getD_cons_zero, List.getD_cons_succ, List.set_cons_succ,
          List.set_cons_zero]
        exact swapHead_perm t k x (Nat.lt_of_succ_lt_succ hi)
      | succ m =>
        show List.Perm (((x :: t).set (k+1) ((x :: t).getD (m+1) 0)).set (m+1)
          ((x :: t).getD (k+1) 0)) _
        simp only [List.getD_cons_succ, List.set_cons_succ]
        exact List.Perm.cons x (ih k m (Nat.le_of_succ_le_succ hji) (Nat.lt_of_succ_lt_succ hi))

theorem shuffleStep_perm (arr : List Nat) (h : Int) (i : Nat) (hi : i < arr.length) :
    List.Perm (shuffleStep (arr, h) i).1 arr := by
  unfold shuffleStep
  simp only
  apply listSwap_perm
  · have hu : (seededNext h).2 < U32 := toUint32_lt _
    have : (seededNext h).2 * (i + 1) / U32 < i + 1 := by
      rw [Nat.div_lt_iff_lt_mul (by decide : 0 < U32)]
      calc (seededNext h).2 * (i + 1) < U32 * (i + 1) :=
            Nat.mul_lt_mul_of_pos_right hu (Nat.succ_pos i)
        _ = (i + 1) * U32 := Nat.mul_comm _ _
    exact Nat.lt_succ_iff.mp this
  · exact hi

theorem foldl_shuffleStep_perm : ∀ (idxs : List Nat) (arr : List Nat) (h : Int),
    (∀ i ∈ idxs, i < arr.length) →
    List.Perm (idxs.foldl shuffleStep (arr, h)).1 arr := by
  intro idxs
  induction idxs with
  | nil => intro arr h _; exact List.Perm.refl arr
  | cons i rest ih =>
    intro arr h hlt
    simp only [List.foldl_cons]
    have hi : i < arr.length := hlt i (List.mem_cons_self i rest)
    have hstep : List.Perm (shuffleStep (arr, h) i).1 arr := shuffleStep_perm arr h i hi
    have hlen : (shuffleStep (arr, h) i).1.length = arr.length := hstep.length_eq
    have : shuffleStep (arr, h) i = ((shuffleStep (arr, h) i).1, (shuffleStep (arr, h) i).2) :=
      rfl
    rw [this]
    exact List.Perm.trans
      (ih _ _ (fun x hx => hlen ▸ hlt x (List.mem_cons_of_mem _ hx))) hstep

theorem mem_descRange {n i : Nat} (h : i ∈ descRange n) : 0 < i ∧ i < n := by
  unfold descRange at h
  rw [List.mem_reverse, List.mem_map] at h
  obtain ⟨k, hk, rfl⟩ := h
  rw [List.mem_range] at hk
  omega

theorem shuffleArray_perm (arr : List Nat) (h : Int) :
    List.Perm (shuffleArray arr h).1 arr := by
  unfold shuffleArray
  exact foldl_shuffleStep_perm _ arr h (fun i hi => (mem_descRange hi).2)

theorem getShuffledPixelIndices_perm (hash : List Nat → List Nat) (W H : Nat)
    (pw : List Nat) :
    List.Perm (getShuffledPixelIndices hash W H pw) (List.range (W * H)) := by
  unfold getShuffledPixelIndices
  exact shuffleArray_perm _ _

theorem getShuffledPixelIndices_length (hash : List Nat → List Nat) (W H : Nat)
    (pw : List Nat) :
    (getShuffledPixelIndices hash W H pw).length = W * H := by
  rw [(getShuffledPixelIndices_perm hash W H pw).length_eq, List.length_range]

theorem getShuffledPixelIndices_nodup (hash : List Nat → List Nat) (W H : Nat)
    (pw : List Nat) :
    (getShuffledPixelIndices hash W H pw).Nodup :=
  (getShuffledPixelIndices_perm hash W H pw).nodup_iff.mpr (List.nodup_range _)

theorem getShuffledPixelIndices_mem_lt (hash : List Nat → List Nat) (W H : Nat)
    (pw : List Nat) {i : Nat} (h : i ∈ getShuffledPixelIndices hash W H pw) :
    i < W * H := by
  have := (getShuffledPixelIndices_perm hash W H pw).mem_iff.mp h
  rwa [List.mem_range] at this

theorem natToBitsAux_fuel : ∀ (n k : Nat), n < k → natToBitsAux k n = natToBits n := by
  intro n
  induction n using Nat.strong_induction_on with
  | _ n ih =>
    intro k hk
    cases k with
    | zero => exact absurd hk (Nat.not_lt_zero n)
    | succ m =>
      by_cases h2 : n < 2
      · unfold natToBits natToBitsAux
        simp only [h2, if_pos]
      · have hdiv : n / 2 < n := Nat.div_lt_self (by omega) (by decide)
        show natToBitsAux (m + 1) n = natToBitsAux (n + 1) n
        unfold natToBitsAux
        simp only [h2, if_neg, not_false_iff]
        rw [ih (n / 2) hdiv m (by omega), ih (n / 2) hdiv n (by omega)]

theorem natToBits_lt_two {n : Nat} (h : n < 2) : natToBits n = [n] := by
  unfold natToBits natToBitsAux
  simp only [h, if_pos]

theorem natToBits_two_le {n : Nat} (h : 2 ≤ n) :
    natToBits n = natToBits (n / 2) ++ [n % 2] := by
  conv_lhs => unfold natToBits natToBitsAux
  simp only [Nat.not_lt_of_le h, if_neg, not_false_iff]
  rw [natToBitsAux_fuel (n / 2) n (by omega)]

theorem natToBits_digits_lt : ∀ (n : Nat), ∀ b ∈ natToBits n, b < 2 := by
  intro n
  induction n using Nat.strong_induction_on with
  | _ n ih =>
    by_cases h2 : n < 2
    · rw [natToBits_lt_two h2]
      intro b hb
      rw [List.mem_singleton] at hb
      omega
    · rw [natToBits_two_le (Nat.le_of_not_lt h2)]
      intro b hb
      rcases List.mem_append.mp hb with h | h
      · exact ih (n / 2) (Nat.div_lt_self (by omega) (by decide)) b h
      · rw [List.mem_singleton] at h
        subst h
        exact Nat.mod_lt n (by decide)

theorem natToBits_length_pos (n : Nat) : 0 < (natToBits n).length := by
  by_cases h2 : n < 2
  · rw [natToBits_lt_two h2]; simp
  · rw [natToBits_two_le (Nat.le_of_not_lt h2)]
    simp

theorem natToBits_length_le : ∀ (k n : Nat), 0 < k → n < 2 ^ k →
    (natToBits n).length ≤ k := by
  intro k
  induction k with
  | zero => omega
  | succ m ih =>
    intro n _ hn
    by_cases h2 : n < 2
    · rw [natToBits_lt_two h2]; simp
    · rw [natToBits_two_le (Nat.le_of_not_lt h2)]
      rw [List.length_append, List.length_singleton]
      have hm : 0 < m := by
        rcases Nat.eq_zero_or_pos m with h | h
        · subst h; omega
        · exact h
      have : n / 2 < 2 ^ m := by
        rw [Nat.pow_succ] at hn
        omega
      have := ih (n / 2) hm this
      omega

theorem binaryToNumber_nil : binaryToNumber [] = 0 := rfl

theorem foldl_bin_acc : ∀ (l : List Nat) (a : Nat),
    l.foldl (fun x b => 2 * x + b) a = a * 2 ^ l.length + binaryToNumber l := by
  intro l
  induction l with
  | nil => intro a; simp [binaryToNumber]
  | cons b t ih =>
    intro a
    show t.foldl _ (2 * a + b) = a * 2 ^ (b :: t).length + binaryToNumber (b :: t)
    rw [ih (2 * a + b)]
    have : binaryToNumber (b :: t) = b * 2 ^ t.length + binaryToNumber t := by
      show t.foldl _ (2 * 0 + b) = _
      rw [ih (2 * 0 + b)]
      ring_nf
    rw [this, List.length_cons]
    ring

theorem binaryToNumber_append (a b : List Nat) :
    binaryToNumber (a ++ b) = binaryToNumber a * 2 ^ b.length + binaryToNumber b := by
  unfold binaryToNumber
  rw [List.foldl_append]
  exact foldl_bin_acc b _

theorem binaryToNumber_replicate_zero (k : Nat) :
    binaryToNumber (List.replicate k 0) = 0 := by
  induction k with
  | zero => rfl
  | succ m ih =>
    show binaryToNumber (List.replicate (m + 1) 0) = 0
    rw [List.replicate_succ]
    show List.foldl _ (2 * 0 + 0) _ = 0
    rw [foldl_bin_acc]
    simpa [binaryToNumber] using ih

theorem binaryToNumber_padStart (w : Nat) (l : List Nat) :
    binaryToNumber (padStart w l) = binaryToNumber l := by
  unfold padStart
  rw [binaryToNumber_append, binaryToNumber_replicate_zero, Nat.zero_mul, Nat.zero_add]

theorem binaryToNumber_natToBits : ∀ (n : Nat), binaryToNumber (natToBits n) = n := by
  intro n
  induction n using Nat.strong_induction_on with
  | _ n ih =>
    by_cases h2 : n < 2
    · rw [natToBits_lt_two h2]
      show 2 * 0 + n = n
      omega
    · rw [natToBits_two_le (Nat.le_of_not_lt h2), binaryToNumber_append]
      rw [ih (n / 2) (Nat.div_lt_self (by omega) (by decide))]
      show n / 2 * 2 ^ 1 + (2 * 0 + n % 2) = n
      omega

theorem padStart_length (w : Nat) (l : List Nat) :
    (padStart w l).length = max w l.length := by
  unfold padStart
  rw [List.length_append, List.length_replicate]
  omega

theorem padStart_length_of_le {w : Nat} {l : List Nat} (h : l.length ≤ w) :
    (padStart w l).length = w := by
  rw [padStart_length]
  omega

theorem charBits_length {c : Nat} (h : c < 256) : (padStart 8 (natToBits c)).length = 8 :=
  padStart_length_of_le (natToBits_length_le 8 c (by decide) h)

theorem numberTo32BitBinary_length {n : Nat} (h : n < U32) :
    (numberTo32BitBinary n).length = 32 :=
  padStart_length_of_le (natToBits_length_le 32 n (by decide) (U32_eq_pow ▸ h))

theorem binaryToNumber_numberTo32BitBinary (n : Nat) :
    binaryToNumber (numberTo32BitBinary n) = n := by
  unfold numberTo32BitBinary
  rw [binaryToNumber_padStart, binaryToNumber_natToBits]

theorem stringToBinary_nil : stringToBinary [] = [] := rfl

theorem stringToBinary_cons (c : Nat) (t : List Nat) :
    stringToBinary (c :: t) = padStart 8 (natToBits c) ++ stringToBinary t := by
  unfold stringToBinary
  rw [List.map_cons, List.flatten_cons]

theorem stringToBinary_length (s : List Nat) (h : ∀ c ∈ s, c < 256) :
    (stringToBinary s).length = 8 * s.length := by
  induction s with
  | nil => rfl
  | cons c t ih =>
    rw [stringToBinary_cons, List.length_append,
      charBits_length (h c (List.mem_cons_self c t)),
      ih (fun x hx => h x (List.mem_cons_of_mem _ hx)), List.length_cons]
    ring

theorem stringToBinary_digits_lt (s : List Nat) : ∀ b ∈ stringToBinary s, b < 2 := by
  induction s with
  | nil => intro b hb; exact absurd hb (by rw [stringToBinary_nil]; simp)
  | cons c t ih =>
    intro b hb
    rw [stringToBinary_cons, List.mem_append] at hb
    rcases hb with h | h
    · unfold padStart at h
      rcases List.mem_append.mp h with h | h
      · rw [List.eq_of_mem_replicate h]; decide
      · exact natToBits_digits_lt c b h
    · exact ih b h

theorem binaryToStringAux_fuel : ∀ (k : Nat) (bits : List Nat), bits.length ≤ k →
    binaryToStringAux k bits = binaryToString bits := by
  intro k
  induction k using Nat.strong_induction_on with
  | _ k ih =>
    intro bits h
    cases k with
    | zero =>
      have : bits = [] := List.eq_nil_of_length_eq_zero (Nat.le_zero.mp h)
      subst this
      rfl
    | succ m =>
      cases bits with
      | nil => rfl
      | cons b t =>
        have hlen : t.length ≤ m := by
          rw [List.length_cons] at h
          omega
        have hdroplen : ((b :: t).drop 8).length ≤ t.length := by
          rw [List.length_drop, List.length_cons]
          omega
        unfold binaryToString
        simp only [binaryToStringAux, List.length_cons]
        rw [ih m (Nat.lt_succ_self m) _ (Nat.le_trans hdroplen hlen),
          ih t.length (Nat.lt_succ_of_le hlen) _ hdroplen]

theorem binaryToString_nil : binaryToString [] = [] := rfl

theorem binaryToString_ne_nil {bits : List Nat} (h : bits ≠ []) :
    binaryToString bits = binaryToNumber (bits.take 8) :: binaryToString (bits.drop 8) := by
  cases bits with
  | nil => exact absurd rfl h
  | cons b t =>
    conv_lhs => unfold binaryToString
    simp only [binaryToStringAux, List.length_cons]
    rw [binaryToStringAux_fuel t.length ((b :: t).drop 8)
      (by rw [List.length_drop, List.length_cons]; omega)]

theorem binaryToString_stringToBinary (s : List Nat) (h : ∀ c ∈ s, c < 256) :
    binaryToString (stringToBinary s) = s := by
  induction s with
  | nil => rfl
  | cons c t ih =>
    rw [stringToBinary_cons]
    have hc : c < 256 := h c (List.mem_cons_self c t)
    have hlen : (padStart 8 (natToBits c)).length = 8 := charBits_length hc
    have hne : padStart 8 (natToBits c) ++ stringToBinary t ≠ [] := by
      intro hcontra
      have := congrArg List.length hcontra
      rw [List.length_append, hlen] at this
      simp at this
    rw [binaryToString_ne_nil hne]
    have htake := List.take_left (padStart 8 (natToBits c)) (stringToBinary t)
    rw [hlen] at htake
    have hdrop := List.drop_left (padStart 8 (natToBits c)) (stringToBinary t)
    rw [hlen] at hdrop
    rw [htake, hdrop, binaryToNumber_padStart, binaryToNumber_natToBits,
      ih (fun x hx => h x (List.mem_cons_of_mem _ hx))]

theorem posStream_nil : posStream [] = [] := rfl

theorem posStream_cons (idx : Nat) (rest : List Nat) :
    posStream (idx :: rest) = [idx * 4, idx * 4 + 1, idx * 4 + 2] ++ posStream rest := by
  unfold posStream
  rw [List.flatMap_cons]

theorem lsbStream_nil (b : Buffer) : lsbStream b [] = [] := rfl

theorem lsbStream_cons (b : Buffer) (idx : Nat) (rest : List Nat) :
    lsbStream b (idx :: rest) =
      [Nat.land (b.getD (idx * 4) 0) 1, Nat.land (b.getD (idx * 4 + 1) 0) 1,
        Nat.land (b.getD (idx * 4 + 2) 0) 1] ++ lsbStream b rest := by
  unfold lsbStream
  rw [posStream_cons, List.map_append]
  rfl

theorem lsbStream_length (b : Buffer) (os : List Nat) :
    (lsbStream b os).length = 3 * os.length := by
  induction os with
  | nil => rfl
  | cons idx rest ih =>
    rw [lsbStream_cons, List.length_append, ih, List.length_cons]
    simp
    ring

theorem lsbStream_drop (b : Buffer) : ∀ (k : Nat) (os : List Nat),
    lsbStream b (os.drop k) = (lsbStream b os).drop (3 * k) := by
  intro k
  induction k with
  | zero => intro os; simp
  | succ m ih =>
    intro os
    cases os with
    | nil => simp [lsbStream_nil]
    | cons idx rest =>
      rw [List.drop_succ_cons, ih, lsbStream_cons]
      rw [List.drop_append_eq_append_drop]
      have h3 : 3 * (m + 1) - ([Nat.land (b.getD (idx * 4) 0) 1,
          Nat.land (b.getD (idx * 4 + 1) 0) 1,
          Nat.land (b.getD (idx * 4 + 2) 0) 1] : List Nat).length = 3 * m := by
        simp only [List.length_cons, List.length_nil]
        omega
      rw [h3]
      have : List.drop (3 * (m + 1)) ([Nat.land (b.getD (idx * 4) 0) 1,
          Nat.land (b.getD (idx * 4 + 1) 0) 1,
          Nat.land (b.getD (idx * 4 + 2) 0) 1] : List Nat) = [] :=
        List.drop_eq_nil_of_le (by simp only [List.length_cons, List.length_nil]; omega)
      rw [this, List.nil_append]

theorem readPush_buffer (b : Buffer) (p : Nat) (acc : List Nat) (limit : Nat) :
    (readPush b p acc limit).1 = b := by
  unfold readPush
  split <;> rfl

theorem foldl_readPush (chs : List Nat) : ∀ (b : Buffer) (base limit : Nat) (acc : List Nat),
    chs.foldl (fun (s : Buffer × List Nat) c => readPush s.1 (base + c) s.2 limit) (b, acc) =
      (b, acc ++ (chs.map (fun c => Nat.land (b.getD (base + c) 0) 1)).take
        (limit - acc.length)) := by
  induction chs with
  | nil => intro b base limit acc; simp
  | cons c t ih =>
    intro b base limit acc
    have hstep : (c :: t).foldl
        (fun (s : Buffer × List Nat) c => readPush s.1 (base + c) s.2 limit) (b, acc) =
        t.foldl (fun (s : Buffer × List Nat) c => readPush s.1 (base + c) s.2 limit)
          (readPush b (base + c) acc limit) := rfl
    rw [hstep]
    by_cases hl : acc.length < limit
    · have hr : readPush b (base + c) acc limit
          = (b, acc ++ [Nat.land (b.getD (base + c) 0) 1]) := by
        unfold readPush
        rw [if_pos hl]
      rw [hr, ih]
      have hk : limit - acc.length = (limit - (acc ++ [Nat.land (b.getD (base + c) 0) 1]).length) + 1 := by
        rw [List.length_append, List.length_singleton]
        omega
      rw [List.map_cons, hk, List.take_succ_cons, List.append_assoc, List.singleton_append]
    · have hr : readPush b (base + c) acc limit = (b, acc) := by
        unfold readPush
        rw [if_neg hl]
      rw [hr, ih]
      have hk : limit - acc.length = 0 := by omega
      rw [hk]
      simp

theorem extractHeader_cons (b : Buffer) (idx : Nat) (rest : List Nat) (acc : List Nat) :
    extractHeader b (idx :: rest) acc =
      if acc.length < 32 then
        extractHeader b rest (acc ++
          ([Nat.land (b.getD (idx * 4) 0) 1, Nat.land (b.getD (idx * 4 + 1) 0) 1,
            Nat.land (b.getD (idx * 4 + 2) 0) 1]).take (32 - acc.length))
      else (b, acc) := by
  have hf := foldl_readPush [0, 1, 2] b (idx * 4) 32 acc
  simp only [List.foldl_cons, List.foldl_nil, List.map_cons, List.map_nil, Nat.add_zero] at hf
  by_cases hl : acc.length < 32
  · rw [if_pos hl]
    simp only [extractHeader]
    rw [if_pos hl]
    rw [hf]
  · rw [if_neg hl]
    simp only [extractHeader]
    rw [if_neg hl]

theorem append_take_take (acc T S : List Nat) (limit : Nat) :
    (acc ++ T.take (limit - acc.length)) ++
        S.take (limit - (acc ++ T.take (limit - acc.length)).length) =
      acc ++ (T.take (limit - acc.length) ++ S.take (limit - acc.length - T.length)) := by
  rw [List.append_assoc]
  have hcount : limit - (acc ++ T.take (limit - acc.length)).length
      = limit - acc.length - T.length := by
    rw [List.length_append, List.length_take]
    omega
  rw [hcount]

theorem extractHeader_eq (b : Buffer) : ∀ (os : List Nat) (acc : List Nat),
    extractHeader b os acc = (b, acc ++ (lsbStream b os).take (32 - acc.length)) := by
  intro os
  induction os with
  | nil =>
    intro acc
    show (b, acc) = _
    rw [lsbStream_nil, List.take_nil, List.append_nil]
  | cons idx rest ih =>
    intro acc
    rw [extractHeader_cons]
    by_cases hl : acc.length < 32
    · rw [if_pos hl, ih, lsbStream_cons, List.take_append_eq_append_take, append_take_take]
    · rw [if_neg hl]
      have : 32 - acc.length = 0 := by omega
      rw [this]
      simp

theorem extractBody_cons (b : Buffer) (idx : Nat) (rest : List Nat) (sc limit : Nat)
    (acc : List Nat) (hsc : sc ≤ 3) :
    extractBody b (idx :: rest) sc limit acc =
      if acc.length < limit then
        extractBody b rest 0 limit (acc ++
          (([Nat.land (b.getD (idx * 4) 0) 1, Nat.land (b.getD (idx * 4 + 1) 0) 1,
            Nat.land (b.getD (idx * 4 + 2) 0) 1]).drop sc).take (limit - acc.length))
      else (b, acc) := by
  have hf := foldl_readPush ((List.range channelsPerPixel).drop sc) b (idx * 4) limit acc
  have hmap : ((List.range channelsPerPixel).drop sc).map
      (fun c => Nat.land (b.getD (idx * 4 + c) 0) 1) =
      ([Nat.land (b.getD (idx * 4) 0) 1, Nat.land (b.getD (idx * 4 + 1) 0) 1,
        Nat.land (b.getD (idx * 4 + 2) 0) 1]).drop sc := by
    interval_cases sc <;> rfl
  rw [hmap] at hf
  by_cases hl : acc.length < limit
  · rw [if_pos hl]
    simp only [extractBody]
    rw [if_pos hl]
    rw [hf]
  · rw [if_neg hl]
    simp only [extractBody]
    rw [if_neg hl]

theorem extractBody_eq (b : Buffer) (limit : Nat) : ∀ (os : List Nat) (sc : Nat)
    (acc : List Nat), sc ≤ 3 →
    extractBody b os sc limit acc =
      (b, acc ++ ((lsbStream b os).drop sc).take (limit - acc.length)) := by
  intro os
  induction os with
  | nil =>
    intro sc acc _
    show (b, acc) = _
    rw [lsbStream_nil, List.drop_nil, List.take_nil, List.append_nil]
  | cons idx rest ih =>
    intro sc acc hsc
    rw [extractBody_cons b idx rest sc limit acc hsc]
    by_cases hl : acc.length < limit
    · rw [if_pos hl, ih 0 _ (by omega), List.drop_zero, lsbStream_cons,
        List.drop_append_eq_append_drop]
      have hdz : sc - ([Nat.land (b.getD (idx * 4) 0) 1, Nat.land (b.getD (idx * 4 + 1) 0) 1,
          Nat.land (b.getD (idx * 4 + 2) 0) 1] : List Nat).length = 0 := by
        simp only [List.length_cons, List.length_nil]
        omega
      rw [hdz, List.drop_zero, List.take_append_eq_append_take, append_take_take]
    · rw [if_neg hl]
      have : limit - acc.length = 0 := by omega
      rw [this]
      simp

theorem writeAll_nil (pixels : Buffer) : writeAll pixels [] = pixels := rfl

theorem writeAll_cons (pixels : Buffer) (p v : Nat) (t : List (Nat × Nat)) :
    writeAll pixels ((p, v) :: t) = writeAll (setLSB pixels p v) t := rfl

theorem setLSB_length (b : Buffer) (p v : Nat) : (setLSB b p v).length = b.length :=
  List.length_set b p _

theorem writeAll_length : ∀ (ps : List (Nat × Nat)) (b : Buffer),
    (writeAll b ps).length = b.length := by
  intro ps
  induction ps with
  | nil => intro b; rfl
  | cons pv t ih =>
    intro b
    rw [show writeAll b (pv :: t) = writeAll (setLSB b pv.1 pv.2) t from rfl, ih,
      setLSB_length]

theorem embedLoop_nil_bits (pixels : Buffer) (os : List Nat) :
    embedLoop pixels os [] = pixels := by
  cases os <;> rfl

theorem embedLoop_eq : ∀ (order : List Nat) (pixels : Buffer) (bits : List Nat),
    embedLoop pixels order bits = writeAll pixels ((posStream order).zip bits) := by
  intro order
  induction order with
  | nil => intro pixels bits; rfl
  | cons idx rest ih =>
    intro pixels bits
    match bits with
    | [] => rw [embedLoop_nil_bits, List.zip_nil_right, writeAll_nil]
    | [b1] =>
      show embedLoop (setLSB pixels (idx * 4) b1) rest [] = _
      rw [embedLoop_nil_bits, posStream_cons, List.cons_append, List.cons_append,
        List.cons_append, List.nil_append, List.zip_cons_cons, List.zip_nil_right,
        writeAll_cons, writeAll_nil]
    | [b1, b2] =>
      show embedLoop (setLSB (setLSB pixels (idx * 4) b1) (idx * 4 + 1) b2) rest [] = _
      rw [embedLoop_nil_bits, posStream_cons, List.cons_append, List.cons_append,
        List.cons_append, List.nil_append, List.zip_cons_cons, List.zip_cons_cons,
        List.zip_nil_right, writeAll_cons, writeAll_cons, writeAll_nil]
    | b1 :: b2 :: b3 :: bs =>
      show embedLoop
        (setLSB (setLSB (setLSB pixels (idx * 4) b1) (idx * 4 + 1) b2) (idx * 4 + 2) b3)
        rest bs = _
      rw [ih, posStream_cons, List.cons_append, List.cons_append, List.cons_append,
        List.nil_append, List.zip_cons_cons, List.zip_cons_cons, List.zip_cons_cons,
        writeAll_cons, writeAll_cons, writeAll_cons]

theorem getD_set_self {l : Buffer} {p : Nat} (h : p < l.length) (v : Nat) :
    (l.set p v).getD p 0 = v := by
  rw [List.getD_eq_getElem?_getD, List.getElem?_set_self h]
  rfl

theorem getD_set_ne {l : Buffer} {p q : Nat} (h : p ≠ q) (v : Nat) :
    (l.set p v).getD q 0 = l.getD q 0 := by
  rw [List.getD_eq_getElem?_getD, List.getElem?_set_ne h, ← List.getD_eq_getElem?_getD]

theorem writeAll_getD_of_not_mem : ∀ (ps : List (Nat × Nat)) (b : Buffer) (q : Nat),
    (∀ pr ∈ ps, pr.1 ≠ q) → (writeAll b ps).getD q 0 = b.getD q 0 := by
  intro ps
  induction ps with
  | nil => intro b q _; rfl
  | cons pv t ih =>
    intro b q hq
    rw [show writeAll b (pv :: t) = writeAll (setLSB b pv.1 pv.2) t from rfl,
      ih _ _ (fun pr hpr => hq pr (List.mem_cons_of_mem _ hpr))]
    exact getD_set_ne (hq pv (List.mem_cons_self pv t)) _

theorem writeAll_getD_hit : ∀ (ps : List (Nat × Nat)) (b : Buffer) (k : Nat),
    (ps.map Prod.fst).Nodup → (∀ pr ∈ ps, pr.1 < b.length) → k < ps.length →
    (writeAll b ps).getD (ps.getD k (0, 0)).1 0 =
      Nat.lor (Nat.land (b.getD (ps.getD k (0, 0)).1 0) 254) (ps.getD k (0, 0)).2 := by
  intro ps
  induction ps with
  | nil => intro b k _ _ hk; exact absurd hk (by simp)
  | cons pv t ih =>
    intro b k hnd hlt hk
    rw [List.map_cons, List.nodup_cons] at hnd
    cases k with
    | zero =>
      rw [show writeAll b (pv :: t) = writeAll (setLSB b pv.1 pv.2) t from rfl]
      have hteq : ((pv :: t).getD 0 (0, 0)) = pv := rfl
      rw [hteq]
      have hskip : (writeAll (setLSB b pv.1 pv.2) t).getD pv.1 0
          = (setLSB b pv.1 pv.2).getD pv.1 0 := by
        apply writeAll_getD_of_not_mem
        intro pr hpr heq
        exact hnd.1 (heq ▸ List.mem_map_of_mem Prod.fst hpr)
      rw [hskip]
      exact getD_set_self (hlt pv (List.mem_cons_self pv t)) _
    | succ m =>
      rw [show writeAll b (pv :: t) = writeAll (setLSB b pv.1 pv.2) t from rfl]
      have hteq : ((pv :: t).getD (m + 1) (0, 0)) = t.getD m (0, 0) := rfl
      rw [hteq]
      have hmlt : m < t.length := by
        rw [List.length_cons] at hk
        omega
      have hmem : t.getD m (0, 0) ∈ t := by
        rw [List.getD_eq_getElem t (0, 0) hmlt]
        exact List.getElem_mem hmlt
      have hne : pv.1 ≠ (t.getD m (0, 0)).1 := by
        intro heq
        exact hnd.1 (heq ▸ List.mem_map_of_mem Prod.fst hmem)
      rw [ih _ m hnd.2 (fun pr hpr => by
        rw [setLSB_length]; exact hlt pr (List.mem_cons_of_mem _ hpr)) hmlt,
        show (setLSB b pv.1 pv.2).getD (t.getD m (0, 0)).1 0
          = b.getD (t.getD m (0, 0)).1 0 from getD_set_ne hne _]

theorem posStream_length (order : List Nat) : (posStream order).length = 3 * order.length := by
  induction order with
  | nil => rfl
  | cons idx rest ih =>
    rw [posStream_cons, List.length_append, ih, List.length_cons]
    simp only [List.length_cons, List.length_nil]
    ring

theorem posStream_nodup {order : List Nat} (h : order.Nodup) : (posStream order).Nodup := by
  unfold posStream
  rw [List.nodup_flatMap]
  constructor
  · intro i _
    simp only [List.nodup_cons, List.mem_cons, List.mem_singleton, List.not_mem_nil,
      List.nodup_nil, not_or]
    exact ⟨⟨by omega, by omega, not_false⟩, ⟨by omega, not_false⟩, not_false, trivial⟩
  · apply h.imp
    intro i j hij
    intro a hai haj
    simp only [List.mem_cons, List.not_mem_nil, or_false] at hai haj
    rcases hai with h1 | h1 | h1 <;> rcases haj with h2 | h2 | h2 <;> omega

theorem posStream_getD : ∀ (order : List Nat) (k : Nat), k < 3 * order.length →
    (posStream order).getD k 0 = order.getD (k / 3) 0 * 4 + k % 3 := by
  intro order
  induction order with
  | nil => intro k hk; simp at hk
  | cons idx rest ih =>
    intro k hk
    rw [posStream_cons]
    by_cases h3 : k < 3
    · interval_cases k <;> rfl
    · have hlen : ([idx * 4, idx * 4 + 1, idx * 4 + 2] : List Nat).length = 3 := rfl
      rw [List.getD_append_right [idx * 4, idx * 4 + 1, idx * 4 + 2] (posStream rest) 0 k
        (by rw [hlen]; omega), hlen]
      rw [ih (k - 3) (by rw [List.length_cons] at hk; omega)]
      have hdiv : k / 3 = (k - 3) / 3 + 1 := by omega
      have hmod : k % 3 = (k - 3) % 3 := by omega
      rw [hdiv, hmod, List.getD_cons_succ]

theorem posStream_mem_lt {order : List Nat} {n : Nat} (hord : ∀ i ∈ order, i < n) :
    ∀ p ∈ posStream order, p < 4 * n := by
  intro p hp
  unfold posStream at hp
  rw [List.mem_flatMap] at hp
  obtain ⟨i, hi, hpi⟩ := hp
  have := hord i hi
  simp only [List.mem_cons, List.mem_singleton, List.not_mem_nil, or_false] at hpi
  omega

theorem land_lor_land_one : ∀ v < 256, ∀ b < 2,
    Nat.land (Nat.lor (Nat.land v 254) b) 1 = b := by decide

theorem lor_land_eq : ∀ v < 256, ∀ b < 2,
    Nat.lor (Nat.land v 254) b = 2 * (v / 2) + b := by decide

theorem map_fst_zip_take : ∀ (ps : List Nat) (bs : List Nat), bs.length ≤ ps.length →
    (ps.zip bs).map Prod.fst = ps.take bs.length := by
  intro ps
  induction ps with
  | nil =>
    intro bs h
    have hb : bs.length = 0 := by simpa using h
    have : bs = [] := List.eq_nil_of_length_eq_zero hb
    subst this
    rfl
  | cons p t ih =>
    intro bs h
    cases bs with
    | nil => rfl
    | cons b bt =>
      rw [List.zip_cons_cons, List.map_cons, List.length_cons, List.take_succ_cons,
        ih bt (by simp at h; omega)]

theorem getD_mem_of_lt {l : List Nat} {n : Nat} (h : n < l.length) (d : Nat) :
    l.getD n d ∈ l := by
  rw [List.getD_eq_getElem l d h]
  exact List.getElem_mem h

theorem lsbStream_embed_prefix
    (pixels : Buffer) (order : List Nat) (payload : List Nat)
    (hnd : order.Nodup)
    (hlen : payload.length ≤ 3 * order.length)
    (hpos : ∀ p ∈ posStream order, p < pixels.length)
    (hpix : ∀ v ∈ pixels, v < 256)
    (hbits : ∀ b ∈ payload, b < 2) :
    (lsbStream (embedLoop pixels order payload) order).take payload.length = payload := by
  have hpslen : (posStream order).length = 3 * order.length := posStream_length order
  have hzlen : ((posStream order).zip payload).length = payload.length := by
    rw [List.length_zip, hpslen]
    omega
  have hfst : ((posStream order).zip payload).map Prod.fst
      = (posStream order).take payload.length :=
    map_fst_zip_take _ _ (by rw [hpslen]; omega)
  rw [embedLoop_eq]
  apply List.ext_getElem
  · rw [List.length_take, lsbStream_length]
    omega
  · intro i h1 h2
    have hips : i < (posStream order).length := by
      rw [hpslen]
      omega
    have hiz : i < ((posStream order).zip payload).length := by
      rw [hzlen]
      exact h2
    rw [List.getElem_take]
    have hget : ((posStream order).zip payload).getD i (0, 0)
        = ((posStream order)[i], payload[i]) := by
      rw [List.getD_eq_getElem _ _ hiz, List.getElem_zip]
    have hhit := writeAll_getD_hit ((posStream order).zip payload) pixels i
      (by rw [hfst]
          exact List.Nodup.sublist (List.take_sublist _ _) (posStream_nodup hnd))
      (fun pr hpr => by
        have hm : pr.1 ∈ ((posStream order).zip payload).map Prod.fst :=
          List.mem_map_of_mem Prod.fst hpr
        rw [hfst] at hm
        exact hpos _ ((List.take_sublist _ _).subset hm))
      hiz
    rw [hget] at hhit
    simp only at hhit
    have hmapi : i < (lsbStream (writeAll pixels ((posStream order).zip payload)) order).length := by
      rw [lsbStream_length]
      omega
    show (lsbStream (writeAll pixels ((posStream order).zip payload)) order)[i] = payload[i]
    unfold lsbStream
    rw [List.getElem_map, hhit]
    have hv : pixels.getD ((posStream order)[i]) 0 < 256 :=
      hpix _ (getD_mem_of_lt (hpos _ (List.getElem_mem hips)) 0)
    exact land_lor_land_one _ hv _ (hbits _ (List.getElem_mem h2))

theorem payload_digits_lt (enc : List Nat → List Nat → List Nat) (data pw : List Nat) :
    ∀ b ∈ payloadModel enc data pw, b < 2 := by
  intro b hb
  unfold payloadModel at hb
  rcases List.mem_append.mp hb with h | h
  · unfold numberTo32BitBinary padStart at h
    rcases List.mem_append.mp h with h | h
    · rw [List.eq_of_mem_replicate h]
      decide
    · exact natToBits_digits_lt _ b h
  · exact stringToBinary_digits_lt _ b h

theorem decode_encode_roundtrip
    (hash : List Nat → List Nat) (enc : List Nat → List Nat → List Nat)
    (dec : List Nat → List Nat → Option (List Nat))
    (W H : Nat) (pixels : Buffer) (data pw : List Nat)
    (hpixlen : pixels.length = W * H * 4)
    (hpix : ∀ v ∈ pixels, v < 256)
    (hchars : ∀ c ∈ enc data pw, c < 256)
    (hbody : 8 * (enc data pw).length < U32)
    (hcap : (payloadModel enc data pw).length ≤ W * H * 3)
    (hdec : dec (enc data pw) pw = some data)
    (hdata : data ≠ []) :
    (decodeModel hash dec W H (encodeModel hash enc W H pixels data pw).1 pw).2
      = .ok data := by
  have hL : (stringToBinary (enc data pw)).length = 8 * (enc data pw).length :=
    stringToBinary_length _ hchars
  have hLU : (stringToBinary (enc data pw)).length < U32 := by rw [hL]; exact hbody
  have hhdrlen : (numberTo32BitBinary (stringToBinary (enc data pw)).length).length = 32 :=
    numberTo32BitBinary_length hLU
  have hpayload : payloadModel enc data pw
      = numberTo32BitBinary (stringToBinary (enc data pw)).length
        ++ stringToBinary (enc data pw) := rfl
  have hplen : (payloadModel enc data pw).length
      = 32 + (stringToBinary (enc data pw)).length := by
    rw [hpayload, List.length_append, hhdrlen]
  have hordlen : (getShuffledPixelIndices hash W H pw).length = W * H :=
    getShuffledPixelIndices_length hash W H pw
  have hnd : (getShuffledPixelIndices hash W H pw).Nodup :=
    getShuffledPixelIndices_nodup hash W H pw
  have henc : (encodeModel hash enc W H pixels data pw).1
      = embedLoop pixels (getShuffledPixelIndices hash W H pw) (payloadModel enc data pw) := by
    unfold encodeModel
    rw [if_neg (by omega : ¬ (payloadModel enc data pw).length > W * H * 3)]
  rw [henc]
  have hprefix : (lsbStream
      (embedLoop pixels (getShuffledPixelIndices hash W H pw) (payloadModel enc data pw))
      (getShuffledPixelIndices hash W H pw)).take (payloadModel enc data pw).length
      = payloadModel enc data pw := by
    apply lsbStream_embed_prefix _ _ _ hnd
    · rw [hordlen]
      omega
    · intro p hp
      rw [hpixlen]
      have := posStream_mem_lt (fun i hi => getShuffledPixelIndices_mem_lt hash W H pw hi) p hp
      omega
    · exact hpix
    · exact payload_digits_lt enc data pw
  have htake32 : (lsbStream
      (embedLoop pixels (getShuffledPixelIndices hash W H pw) (payloadModel enc data pw))
      (getShuffledPixelIndices hash W H pw)).take 32
      = numberTo32BitBinary (stringToBinary (enc data pw)).length := by
    have h1 : (32 : Nat) = min 32 (payloadModel enc data pw).length := by omega
    rw [h1, ← List.take_take, hprefix, hpayload, ← hhdrlen, List.take_left]
  have hdrop32 : ((lsbStream
      (embedLoop pixels (getShuffledPixelIndices hash W H pw) (payloadModel enc data pw))
      (getShuffledPixelIndices hash W H pw)).drop 32).take
        (stringToBinary (enc data pw)).length
      = stringToBinary (enc data pw) := by
    have hM : (stringToBinary (enc data pw)).length = (payloadModel enc data pw).length - 32 := by
      omega
    rw [hM, ← List.drop_take, hprefix, hpayload, ← hhdrlen, List.drop_left]
  simp only [decodeModel]
  rw [extractHeader_eq]
  simp only [List.length_nil, Nat.sub_zero, List.nil_append]
  rw [htake32]
  rw [if_neg (by rw [hhdrlen]; omega)]
  rw [binaryToNumber_numberTo32BitBinary]
  rw [if_neg (by omega : ¬ (stringToBinary (enc data pw)).length > W * H * 3)]
  rw [extractBody_eq _ _ _ _ _ (by decide : startChannelVal ≤ 3)]
  simp only [List.length_nil, Nat.sub_zero, List.nil_append]
  have h10 : pixelsUsedForLength - 1 = 10 := by decide
  have hsc : startChannelVal = 2 := by decide
  rw [h10, hsc, lsbStream_drop, List.drop_drop]
  have h32 : 2 + 3 * 10 = 32 := by decide
  rw [h32, hdrop32]
  rw [if_neg (by omega : ¬ (stringToBinary (enc data pw)).length
    < (stringToBinary (enc data pw)).length)]
  rw [binaryToString_stringToBinary _ hchars, hdec]
  simp only [if_neg hdata]

/-- C10: extraction is read-only — for every stego image and password,
`decode` never modifies the pixel buffer: every pixel access during header and
body extraction is a read, so the buffer returned alongside any decode
outcome, successful or failing, equals the input buffer. -/
theorem C10_decode_read_only (hash : List Nat → List Nat)
    (dec : List Nat → List Nat → Option (List Nat)) (W H : Nat) (pixels : Buffer)
    (pw : List Nat) :
    (decodeModel hash dec W H pixels pw).1 = pixels := by
  simp only [decodeModel]
  rw [extractHeader_eq, extractBody_eq _ _ _ _ _ (by decide : startChannelVal ≤ 3)]
  split
  · rfl
  · split
    · rfl
    · split
      · rfl
      · split
        · rfl
        · split
          · rfl
          · rfl

/-- C2: header-to-body continuation — the body loop starts at the 11th pixel
of the permuted order (index 10) at channel 2, i.e. exactly at permuted
channel position 32 = 10×3 + 2, and for every declared length `L` the body
bits collected are exactly the LSBs at permuted channel positions
32 .. 32+L−1, with no channel re-read or skipped. -/
theorem C2_header_body_continuation (pixels : Buffer) (order : List Nat) (L : Nat) :
    pixelsUsedForLength - 1 = 10 ∧ startChannelVal = 2 ∧
    (extractBody pixels (order.drop (pixelsUsedForLength - 1)) startChannelVal L []).2
      = ((lsbStream pixels order).drop 32).take L ∧
    (32 + L ≤ 3 * order.length →
      ((extractBody pixels (order.drop (pixelsUsedForLength - 1)) startChannelVal L []).2).length
        = L) := by
  have h10 : pixelsUsedForLength - 1 = 10 := by decide
  have hsc : startChannelVal = 2 := by decide
  have hbody : (extractBody pixels (order.drop (pixelsUsedForLength - 1)) startChannelVal L []).2
      = ((lsbStream pixels order).drop 32).take L := by
    rw [extractBody_eq _ _ _ _ _ (by decide : startChannelVal ≤ 3)]
    simp only [List.length_nil, Nat.sub_zero, List.nil_append]
    rw [h10, hsc, lsbStream_drop, List.drop_drop]
  refine ⟨h10, hsc, hbody, fun hle => ?_⟩
  rw [hbody, List.length_take, List.length_drop, lsbStream_length]
  omega

/-- C2 witness: a concrete 15-pixel image with declared length 5. -/
theorem C2_witness : 32 + 5 ≤ 3 * (List.range 15).length ∧
    ((extractBody (List.replicate 60 7) ((List.range 15).drop (pixelsUsedForLength - 1))
      startChannelVal 5 []).2).length = 5 :=
  ⟨by decide, (C2_header_body_continuation (List.replicate 60 7) (List.range 15) 5).2.2.2
    (by decide)⟩

/-- C8: invalid length detection — for every stego image offering at least 32
channel bits, decoding fails with the invalid-length error if and only if the
32-bit header value parsed from the permuted LSB sequence exceeds the capacity
W×H×3 (a negative value is impossible for a nonnegative binary parse), and in
that case no plaintext is returned. -/
theorem C8_invalid_length (hash : List Nat → List Nat)
    (dec : List Nat → List Nat → Option (List Nat)) (W H : Nat) (pixels : Buffer)
    (pw : List Nat) (hmin : 32 ≤ W * H * 3) :
    ((decodeModel hash dec W H pixels pw).2 = .error .invalidLength ↔
      W * H * 3 < binaryToNumber
        ((lsbStream pixels (getShuffledPixelIndices hash W H pw)).take 32)) := by
  simp only [decodeModel]
  rw [extractHeader_eq]
  simp only [List.length_nil, Nat.sub_zero, List.nil_append]
  have hlen32 : ((lsbStream pixels (getShuffledPixelIndices hash W H pw)).take 32).length
      = 32 := by
    rw [List.length_take, lsbStream_length, getShuffledPixelIndices_length]
    omega
  rw [if_neg (by rw [hlen32]; omega)]
  by_cases hbig : binaryToNumber
      ((lsbStream pixels (getShuffledPixelIndices hash W H pw)).take 32) > W * H * 3
  · rw [if_pos hbig]
    exact iff_of_true rfl hbig
  · rw [if_neg hbig]
    apply iff_of_false _ (by omega)
    intro hcontra
    revert hcontra
    split
    · intro hcontra
      simp at hcontra
    · split
      · intro hcontra
        simp at hcontra
      · split
        · intro hcontra
          simp at hcontra
        · intro hcontra
          simp at hcontra

/-- C8 witness: an all-zero 11×1 image parses header value 0, which does not
exceed capacity 33, so no invalid-length error is raised. -/
theorem C8_witness : 32 ≤ 11 * 1 * 3 ∧
    ¬ ((decodeModel (fun _ => []) (fun c _ => some c) 11 1 (List.replicate 44 0) []).2
      = .error .invalidLength) :=
  ⟨by decide, fun h =>
    by
      have := (C8_invalid_length (fun _ => []) (fun c _ => some c) 11 1
        (List.replicate 44 0) [] (by decide)).mp h
      revert this
      decide⟩

/-- C3: capacity check — embedding fails with the capacity error, reporting
required = framed payload bit length and available = W×H×3, exactly when the
framed payload exceeds W×H×3, and in the failing case the buffer is returned
untouched; a payload of exactly capacity bits embeds successfully (8×3 image,
5-char ciphertext, 72 = 72), capacity+1 bits fails (13×1 image, 1-char
ciphertext, 40 > 39, reporting 40/39), and a 10×10 image with a 40-char
ciphertext (352 framed bits) fails reporting required=352, available=300. -/
theorem C3_capacity_check :
    (∀ (hash : List Nat → List Nat) (enc : List Nat → List Nat → List Nat) (W H : Nat)
      (pixels : Buffer) (data pw : List Nat),
      ((encodeModel hash enc W H pixels data pw).2
          = .error (.capacityExceeded (payloadModel enc data pw).length (W * H * 3))
        ↔ W * H * 3 < (payloadModel enc data pw).length)) ∧
    (∀ (hash : List Nat → List Nat) (enc : List Nat → List Nat → List Nat) (W H : Nat)
      (pixels : Buffer) (data pw : List Nat),
      W * H * 3 < (payloadModel enc data pw).length →
      (encodeModel hash enc W H pixels data pw).1 = pixels) ∧
    (∀ (hash : List Nat → List Nat) (enc : List Nat → List Nat → List Nat) (W H : Nat)
      (pixels : Buffer) (data pw : List Nat),
      (payloadModel enc data pw).length ≤ W * H * 3 →
      (encodeModel hash enc W H pixels data pw).2 = .ok ()) ∧
    (encodeModel (fun _ => []) (fun _ _ => [65, 65, 65, 65, 65]) 8 3
      (List.replicate 96 0) [] []).2 = .ok () ∧
    (encodeModel (fun _ => []) (fun _ _ => [65]) 13 1 (List.replicate 52 0) [] []).2
      = .error (.capacityExceeded 40 39) ∧
    (encodeModel (fun _ => []) (fun _ _ => List.replicate 40 65) 10 10
      (List.replicate 400 0) [] []).2 = .error (.capacityExceeded 352 300) := by
  refine ⟨?_, ?_, ?_, rfl, rfl, rfl⟩
  · intro hash enc W H pixels data pw
    unfold encodeModel
    by_cases hgt : (payloadModel enc data pw).length > W * H * 3
    · rw [if_pos hgt]
      exact iff_of_true rfl hgt
    · rw [if_neg hgt]
      refine iff_of_false (fun hcontra => ?_) (by omega)
      simp at hcontra
  · intro hash enc W H pixels data pw hgt
    unfold encodeModel
    rw [if_pos (by omega : (payloadModel enc data pw).length > W * H * 3)]
  · intro hash enc W H pixels data pw hle
    unfold encodeModel
    rw [if_neg (by omega : ¬ (payloadModel enc data pw).length > W * H * 3)]

/-- C3 witness: the 10×10 spec scenario discharges the no-mutation conjunct at
a concrete overful payload. -/
theorem C3_witness : 10 * 10 * 3 < (payloadModel (fun _ _ => List.replicate 40 65)
    [] []).length ∧
    (encodeModel (fun _ => []) (fun _ _ => List.replicate 40 65) 10 10
      (List.replicate 400 0) [] []).1 = List.replicate 400 0 :=
  ⟨by decide, C3_capacity_check.2.1 (fun _ => []) (fun _ _ => List.replicate 40 65) 10 10
    (List.replicate 400 0) [] [] (by decide)⟩

/-- C7 counterexample: the character with code point 256 is framed as 9 bits,
not 8 — `stringToBinary` pads with `padStart(8, '0')` but never truncates, so
the body bit length is not 8 × the ciphertext length for such inputs. -/
theorem C7_counterexample :
    (stringToBinary [256]).length ≠ 8 * ([256] : List Nat).length := by decide

/-- C7 amended: for every ciphertext whose characters all have code points
below 256, each character maps to exactly 8 bits decoding back to its code
point, the body has bit length 8×len(ciphertext), the 32-bit header field of
the framed payload always parses back to exactly the body bit length, and the
header field is exactly 32 bits wide whenever that length fits in 32 bits.
Characters with code point ≥ 256 are emitted as more than 8 bits (see the
counterexample), contrary to the claim's parenthetical. -/
theorem C7_framing_amended (c : List Nat) (h : ∀ x ∈ c, x < 256) :
    (∀ x ∈ c, (padStart 8 (natToBits x)).length = 8 ∧
      binaryToNumber (padStart 8 (natToBits x)) = x) ∧
    (stringToBinary c).length = 8 * c.length ∧
    binaryToNumber (numberTo32BitBinary (stringToBinary c).length)
      = (stringToBinary c).length ∧
    (8 * c.length < U32 → (numberTo32BitBinary (stringToBinary c).length).length = 32) := by
  refine ⟨fun x hx => ⟨charBits_length (h x hx), ?_⟩, stringToBinary_length c h,
    binaryToNumber_numberTo32BitBinary _, fun hU => ?_⟩
  · rw [binaryToNumber_padStart, binaryToNumber_natToBits]
  · exact numberTo32BitBinary_length (by rw [stringToBinary_length c h]; exact hU)

/-- C7 witness: the framing invariants at the concrete ciphertext "Hi". -/
theorem C7_witness : (∀ x ∈ ([72, 105] : List Nat), x < 256) ∧
    (stringToBinary [72, 105]).length = 8 * ([72, 105] : List Nat).length :=
  ⟨by decide, (C7_framing_amended [72, 105] (by decide)).2.1⟩

/-- C4: seeded generator bit-exactness — the JavaScript signed 32-bit
implementation (`Math.imul`, `^`, `<<`, `>>>`, `|`) agrees with the spec's
unsigned 32-bit wraparound reference: seeding from any UTF-16 string yields
the unsigned state `h = 1779033703 XOR length` folded with
`h = rotl13((h XOR charcode) * 3432918353 mod 2^32)`, and every draw agrees
with the unsigned two-round xorshift-multiply recurrence, producing an
unsigned 32-bit numerator (so the float `h / 2^32` lies in [0, 1)). -/
theorem C4_seeded_generator (seed : List Nat) (hc : ∀ c ∈ seed, c < 65536)
    (hl : seed.length < U32) :
    toUint32 (createSeededRandom seed) = uSeedInit seed ∧
    (∀ h : Int, toUint32 (seededNext h).1 = (uNext (toUint32 h)).1 ∧
      (seededNext h).2 = (uNext (toUint32 h)).2 ∧ (seededNext h).2 < U32) := by
  refine ⟨toUint32_createSeededRandom seed
    (fun c hcc => lt_trans (hc c hcc) (by decide)) hl, fun h => ?_⟩
  refine ⟨(seededNext_agree h).1, (seededNext_agree h).2, ?_⟩
  show toUint32 _ < U32
  exact toUint32_lt _

/-- C4 witness: agreement of the two models on the concrete seed "abc". -/
theorem C4_witness : ([97, 98, 99] : List Nat).length < U32 ∧
    toUint32 (createSeededRandom [97, 98, 99]) = uSeedInit [97, 98, 99] :=
  ⟨by decide, (C4_seeded_generator [97, 98, 99] (by decide) (by decide)).1⟩

/-- C5: permutation property — for every hash function standing in for the
SHA-256 collaborator, every password and all W, H ≥ 1, the shuffled pixel
index list is a permutation of [0, W×H): length W×H, no duplicates, no
omissions. -/
theorem C5_permutation (hash : List Nat → List Nat) (W H : Nat) (pw : List Nat)
    (_hW : 1 ≤ W) (_hH : 1 ≤ H) :
    List.Perm (getShuffledPixelIndices hash W H pw) (List.range (W * H)) ∧
    (getShuffledPixelIndices hash W H pw).length = W * H ∧
    (getShuffledPixelIndices hash W H pw).Nodup ∧
    (∀ i, i ∈ getShuffledPixelIndices hash W H pw ↔ i < W * H) := by
  refine ⟨getShuffledPixelIndices_perm hash W H pw,
    getShuffledPixelIndices_length hash W H pw,
    getShuffledPixelIndices_nodup hash W H pw, fun i => ?_⟩
  rw [(getShuffledPixelIndices_perm hash W H pw).mem_iff, List.mem_range]

/-- C5 witness: a concrete 2×2 image under a constant hash function. -/
theorem C5_witness : (1 : Nat) ≤ 2 ∧
    List.Perm (getShuffledPixelIndices (fun _ => []) 2 2 []) (List.range (2 * 2)) :=
  ⟨by decide, (C5_permutation (fun _ => []) 2 2 [] (by decide) (by decide)).1⟩

/-- C6: permutation determinism — the shuffled pixel order is a pure function
of (hash string, W×H): two invocations with the same inputs are identical
(each call builds a fresh generator state from the hash alone), and any two
calls agreeing on the password hash and the pixel count agree entirely. -/
theorem C6_determinism (hash hash2 : List Nat → List Nat) (W H W2 H2 : Nat)
    (pw pw2 : List Nat) :
    getShuffledPixelIndices hash W H pw = getShuffledPixelIndices hash W H pw ∧
    (hash pw = hash2 pw2 → W * H = W2 * H2 →
      getShuffledPixelIndices hash W H pw = getShuffledPixelIndices hash2 W2 H2 pw2) := by
  refine ⟨rfl, fun h1 h2 => ?_⟩
  unfold getShuffledPixelIndices
  rw [h1, h2]

/-- C6 witness: two calls agreeing on the hash value and pixel count. -/
theorem C6_witness : getShuffledPixelIndices (fun _ => [1]) 2 3 []
    = getShuffledPixelIndices (fun _ => [1]) 3 2 [5] :=
  (C6_determinism (fun _ => [1]) (fun _ => [1]) 2 3 3 2 [] [5]).2 rfl (by decide)

set_option maxHeartbeats 1000000 in
/-- C9: embed frame condition — for every embed within capacity, the buffer
after embedding holds, at the first N permuted channel offsets (pixel
`order[k/3]`, channel `k%3`, buffer offset `order[k/3]*4 + k%3`), the value
`2*(old/2) + payloadBit k` (LSB overwritten, upper 7 bits kept); every offset
hit by no payload bit is unchanged; the high 7 bits of every channel are
unchanged everywhere; every alpha offset (`q % 4 = 3`) is unchanged; and the
buffer length is unchanged. -/
theorem C9_embed_frame (hash : List Nat → List Nat) (enc : List Nat → List Nat → List Nat)
    (W H : Nat) (pixels : Buffer) (data pw : List Nat)
    (hpixlen : pixels.length = W * H * 4)
    (hpix : ∀ v ∈ pixels, v < 256)
    (hcap : (payloadModel enc data pw).length ≤ W * H * 3) :
    (∀ k, k < (payloadModel enc data pw).length →
      (encodeModel hash enc W H pixels data pw).1.getD
          ((posStream (getShuffledPixelIndices hash W H pw)).getD k 0) 0
        = 2 * (pixels.getD ((posStream (getShuffledPixelIndices hash W H pw)).getD k 0) 0 / 2)
          + (payloadModel enc data pw).getD k 0) ∧
    (∀ k, k < (payloadModel enc data pw).length →
      (posStream (getShuffledPixelIndices hash W H pw)).getD k 0
        = (getShuffledPixelIndices hash W H pw).getD (k / 3) 0 * 4 + k % 3) ∧
    (∀ q, (∀ k, k < (payloadModel enc data pw).length →
        (posStream (getShuffledPixelIndices hash W H pw)).getD k 0 ≠ q) →
      (encodeModel hash enc W H pixels data pw).1.getD q 0 = pixels.getD q 0) ∧
    (∀ q, (encodeModel hash enc W H pixels data pw).1.getD q 0 / 2
      = pixels.getD q 0 / 2) ∧
    (∀ q, q % 4 = 3 → (encodeModel hash enc W H pixels data pw).1.getD q 0
      = pixels.getD q 0) ∧
    (encodeModel hash enc W H pixels data pw).1.length = pixels.length := by
  have hordlen : (getShuffledPixelIndices hash W H pw).length = W * H :=
    getShuffledPixelIndices_length hash W H pw
  have hnd : (getShuffledPixelIndices hash W H pw).Nodup :=
    getShuffledPixelIndices_nodup hash W H pw
  have hpslen : (posStream (getShuffledPixelIndices hash W H pw)).length = 3 * (W * H) := by
    rw [posStream_length, hordlen]
  have henc : (encodeModel hash enc W H pixels data pw).1
      = writeAll pixels ((posStream (getShuffledPixelIndices hash W H pw)).zip
          (payloadModel enc data pw)) := by
    unfold encodeModel
    rw [if_neg (by omega : ¬ (payloadModel enc data pw).length > W * H * 3)]
    exact embedLoop_eq _ _ _
  have hzlen : ((posStream (getShuffledPixelIndices hash W H pw)).zip
      (payloadModel enc data pw)).length = (payloadModel enc data pw).length := by
    rw [List.length_zip, hpslen]
    omega
  have hfst : ((posStream (getShuffledPixelIndices hash W H pw)).zip
      (payloadModel enc data pw)).map Prod.fst
      = (posStream (getShuffledPixelIndices hash W H pw)).take
        (payloadModel enc data pw).length :=
    map_fst_zip_take _ _ (by rw [hpslen]; omega)
  have hndz : (((posStream (getShuffledPixelIndices hash W H pw)).zip
      (payloadModel enc data pw)).map Prod.fst).Nodup := by
    rw [hfst]
    exact List.Nodup.sublist (List.take_sublist _ _) (posStream_nodup hnd)
  have hboundz : ∀ pr ∈ (posStream (getShuffledPixelIndices hash W H pw)).zip
      (payloadModel enc data pw), pr.1 < pixels.length := by
    intro pr hpr
    have hm : pr.1 ∈ ((posStream (getShuffledPixelIndices hash W H pw)).zip
        (payloadModel enc data pw)).map Prod.fst := List.mem_map_of_mem Prod.fst hpr
    rw [hfst] at hm
    have := posStream_mem_lt (fun i hi => getShuffledPixelIndices_mem_lt hash W H pw hi)
      pr.1 ((List.take_sublist _ _).subset hm)
    omega
  have hbits := payload_digits_lt enc data pw
  have ha : ∀ k, k < (payloadModel enc data pw).length →
      (encodeModel hash enc W H pixels data pw).1.getD
          ((posStream (getShuffledPixelIndices hash W H pw)).getD k 0) 0
        = 2 * (pixels.getD ((posStream (getShuffledPixelIndices hash W H pw)).getD k 0) 0 / 2)
          + (payloadModel enc data pw).getD k 0 := by
    intro k hk
    have hkps : k < (posStream (getShuffledPixelIndices hash W H pw)).length := by
      rw [hpslen]
      omega
    have hkz : k < ((posStream (getShuffledPixelIndices hash W H pw)).zip
        (payloadModel enc data pw)).length := by
      rw [hzlen]
      exact hk
    have hget : ((posStream (getShuffledPixelIndices hash W H pw)).zip
        (payloadModel enc data pw)).getD k (0, 0)
        = ((posStream (getShuffledPixelIndices hash W H pw))[k],
            (payloadModel enc data pw)[k]) := by
      rw [List.getD_eq_getElem _ _ hkz, List.getElem_zip]
    have hhit := writeAll_getD_hit _ pixels k hndz hboundz hkz
    rw [hget] at hhit
    simp only at hhit
    rw [henc, List.getD_eq_getElem (posStream (getShuffledPixelIndices hash W H pw)) 0 hkps,
      List.getD_eq_getElem (payloadModel enc data pw) 0 hk, hhit]
    have hklt : (posStream (getShuffledPixelIndices hash W H pw))[k] < pixels.length := by
      have := posStream_mem_lt (fun i hi => getShuffledPixelIndices_mem_lt hash W H pw hi)
        _ (List.getElem_mem hkps)
      omega
    exact lor_land_eq _ (hpix _ (getD_mem_of_lt hklt 0)) _ (hbits _ (List.getElem_mem hk))
  have hb : ∀ k, k < (payloadModel enc data pw).length →
      (posStream (getShuffledPixelIndices hash W H pw)).getD k 0
        = (getShuffledPixelIndices hash W H pw).getD (k / 3) 0 * 4 + k % 3 := by
    intro k hk
    exact posStream_getD _ k (by rw [hordlen]; omega)
  have hc : ∀ q, (∀ k, k < (payloadModel enc data pw).length →
        (posStream (getShuffledPixelIndices hash W H pw)).getD k 0 ≠ q) →
      (encodeModel hash enc W H pixels data pw).1.getD q 0 = pixels.getD q 0 := by
    intro q hq
    rw [henc]
    apply writeAll_getD_of_not_mem
    intro pr hpr heq
    have hm : pr.1 ∈ ((posStream (getShuffledPixelIndices hash W H pw)).zip
        (payloadModel enc data pw)).map Prod.fst := List.mem_map_of_mem Prod.fst hpr
    rw [hfst] at hm
    obtain ⟨j, hj, hje⟩ := List.getElem_of_mem hm
    rw [List.length_take] at hj
    rw [List.getElem_take] at hje
    have hjlt : j < (payloadModel enc data pw).length := by omega
    have hjps : j < (posStream (getShuffledPixelIndices hash W H pw)).length := by
      rw [hpslen]
      omega
    exact hq j hjlt (by rw [List.getD_eq_getElem _ 0 hjps, hje, heq])
  have hd : ∀ q, (encodeModel hash enc W H pixels data pw).1.getD q 0 / 2
      = pixels.getD q 0 / 2 := by
    intro q
    rcases Classical.em (∃ k, k < (payloadModel enc data pw).length ∧
        (posStream (getShuffledPixelIndices hash W H pw)).getD k 0 = q) with hex | hex
    · obtain ⟨k, hk, hkq⟩ := hex
      rw [← hkq, ha k hk]
      have : (payloadModel enc data pw).getD k 0 < 2 :=
        hbits _ (getD_mem_of_lt hk 0)
      omega
    · rw [hc q (fun k hk heq => hex ⟨k, hk, heq⟩)]
  have he : ∀ q, q % 4 = 3 → (encodeModel hash enc W H pixels data pw).1.getD q 0
      = pixels.getD q 0 := by
    intro q hq4
    apply hc
    intro k hk heq
    have := hb k hk
    rw [this] at heq
    omega
  refine ⟨ha, hb, hc, hd, he, ?_⟩
  rw [henc, writeAll_length]

/-- C9 witness: an 11×1 all-value-9 image with an empty ciphertext (32-bit
payload) keeps its buffer length. -/
theorem C9_witness : (List.replicate 44 9).length = 11 * 1 * 4 ∧
    (encodeModel (fun _ => []) (fun _ _ => []) 11 1 (List.replicate 44 9) [] []).1.length
      = (List.replicate 44 9).length :=
  ⟨by decide, (C9_embed_frame (fun _ => []) (fun _ _ => []) 11 1 (List.replicate 44 9) [] []
    (by decide) (by decide) (by decide)).2.2.2.2.2⟩

/-- C1 counterexample: the round trip fails on the empty payload string. With
the identity cipher (a valid cipher model: decryption inverts encryption), an
11×1 cover image and password `[7]`, embedding the empty string succeeds
(32-bit payload, capacity 33), but decoding throws the decryption error
because `decode` rejects an empty decrypted string
(`src/services/steganography.ts:227-229`) — it does not return the original
payload. -/
theorem C1_counterexample :
    (decodeModel (fun _ => []) (fun c _ => some c) 11 1
      (encodeModel (fun _ => []) (fun d _ => d) 11 1 (List.replicate 44 0) [] [7]).1 [7]).2
      = .error .decryption ∧
    (decodeModel (fun _ => []) (fun c _ => some c) 11 1
      (encodeModel (fun _ => []) (fun d _ => d) 11 1 (List.replicate 44 0) [] [7]).1 [7]).2
      ≠ .ok [] := by
  constructor
  · decide
  · decide

/-- C1 amended: round trip for every nonempty payload string — for every
image buffer (W×H×4 channels, 8-bit values), every password, every hash
function standing in for SHA-256, and every cipher pair standing in for
CryptoJS.AES such that decryption inverts encryption on this input, the
ciphertext is Latin-1 (all code points < 256, as the spec requires of
ciphertext output) with body bit length below 2^32 (so it fits the 32-bit
header), and the framed payload fits the capacity W×H×3, decoding the encoded
image with the same password returns the original payload string. The empty
payload is excluded (see the counterexample); body lengths ≥ 2^32 cannot be
framed by a 32-bit header. -/
theorem C1_roundtrip_amended
    (hash : List Nat → List Nat) (enc : List Nat → List Nat → List Nat)
    (dec : List Nat → List Nat → Option (List Nat))
    (W H : Nat) (pixels : Buffer) (data pw : List Nat)
    (hpixlen : pixels.length = W * H * 4)
    (hpix : ∀ v ∈ pixels, v < 256)
    (hchars : ∀ c ∈ enc data pw, c < 256)
    (hbody : 8 * (enc data pw).length < U32)
    (hcap : (payloadModel enc data pw).length ≤ W * H * 3)
    (hdec : dec (enc data pw) pw = some data)
    (hdata : data ≠ []) :
    (decodeModel hash dec W H (encodeModel hash enc W H pixels data pw).1 pw).2
      = .ok data :=
  decode_encode_roundtrip hash enc dec W H pixels data pw hpixlen hpix hchars hbody hcap
    hdec hdata

/-- C1 witness: a concrete 5×3 image, identity cipher, payload "A". -/
theorem C1_witness : (List.replicate 60 200).length = 5 * 3 * 4 ∧
    (decodeModel (fun _ => [3]) (fun c _ => some c) 5 3
      (encodeModel (fun _ => [3]) (fun d _ => d) 5 3 (List.replicate 60 200) [65] [1]).1
      [1]).2 = .ok [65] :=
  ⟨by decide, C1_roundtrip_amended (fun _ => [3]) (fun d _ => d) (fun c _ => some c) 5 3
    (List.replicate 60 200) [65] [1] (by decide) (by decide) (by decide) (by decide)
    (by decide) rfl (by decide)⟩

end Steg
